import Mathlib

/-!
Verification of the custom ingestion worker (Go sources under `pkg/`):
a shallow embedding of the sliding-window rate limiter
(`pkg/ratelimiter`), the field validator (`pkg/validator`), and the
batch orchestration service (`pkg/service`), together with theorems
about the specified behaviour.

Go `time.Time` values are embedded as integers (one unit = one second;
the code only compares times and subtracts the constant one-minute
window, so the unit is irrelevant).  The zero `time.Time` is embedded
as `0`.  Go maps are embedded as functions into `Option`, Go slices as
lists, and methods that mutate a receiver as state-passing functions.
-/

namespace Ingestion

/-- One minute, the window width used by the rate limiter
(`time.Minute` in the Go sources). -/
def oneMinute : Int := 60

/-- State of `ratelimiter.RateLimiter`: the configured per-minute limit
and the per-customer map of accepted request timestamps. -/
structure RateLimiter where
  requestsPerMinute : Int
  requests : String → Option (List Int)

/-- `ratelimiter.NewRateLimiter`: fresh limiter with an empty request map. -/
def NewRateLimiter (requestsPerMinute : Int) : RateLimiter :=
  { requestsPerMinute := requestsPerMinute, requests := fun _ => none }

/-- Store `v` under key `k` in an embedded Go map. -/
def mapInsert (m : String → Option (List Int)) (k : String) (v : List Int) :
    String → Option (List Int) :=
  fun x => if x = k then some v else m x

/-- `(*RateLimiter).IsAllowed`: if the customer is unseen, seed its history
with exactly this timestamp and allow; otherwise keep the stored
timestamps `t` with `t.After(windowStart) || t.Equal(windowStart)`
(that is, `createdAt - oneMinute ≤ t`), store the filtered list, and
append `createdAt` and allow only when the filtered count is below the
limit.  Returns the result together with the updated limiter state. -/
def IsAllowed (r : RateLimiter) (customerID : String) (createdAt : Int) :
    Bool × RateLimiter :=
  match r.requests customerID with
  | none => (true, { r with requests := mapInsert r.requests customerID [createdAt] })
  | some ts =>
      let windowStart := createdAt - oneMinute
      let validRequests := ts.filter (fun t => decide (windowStart ≤ t))
      if (validRequests.length : Int) < r.requestsPerMinute then
        (true, { r with requests := mapInsert r.requests customerID (validRequests ++ [createdAt]) })
      else
        (false, { r with requests := mapInsert r.requests customerID validRequests })

/-- `(*RateLimiter).GetRemainingRequests`: counts the stored timestamps of
the customer within one minute of `now` (the wall clock read inside the
method, made explicit here) and subtracts from the limit.  The method
takes only a read lock and performs no writes, so the state component
of the result is the unchanged receiver. -/
def GetRemainingRequests (r : RateLimiter) (customerID : String) (now : Int) :
    Int × RateLimiter :=
  let windowStart := now - oneMinute
  let validCount : Nat :=
    match r.requests customerID with
    | some ts => (ts.filter (fun t => decide (windowStart ≤ t))).length
    | none => 0
  (r.requestsPerMinute - (validCount : Int), r)

/-- Run a sequence of `IsAllowed` calls for one key, collecting the
returned booleans and the final limiter state. -/
def runResults (r : RateLimiter) (k : String) (ts : List Int) :
    List Bool × RateLimiter :=
  match ts with
  | [] => ([], r)
  | t :: rest =>
      let res := IsAllowed r k t
      let more := runResults res.2 k rest
      (res.1 :: more.1, more.2)

/-- Run a sequence of `IsAllowed` calls with arbitrary keys, returning the
final limiter state. -/
def runAll (r : RateLimiter) (calls : List (String × Int)) : RateLimiter :=
  match calls with
  | [] => r
  | c :: rest => runAll (IsAllowed r c.1 c.2).2 rest

/-- One entry of the append-only `error.log` sink: customer id and reason.
(Each entry also carries a wall-clock write timestamp in the Go code;
nothing reads it back, so it is not modelled.) -/
structure ErrorEntry where
  customerId : String
  reason : String
deriving DecidableEq

/-- State of `validator.Validator`: the process-wide rejection counter and
the error-log sink contents. -/
structure ValidatorState where
  errorCount : Nat
  errorLog : List ErrorEntry
deriving DecidableEq

/-- `validator.NewValidator`: zero error count, empty log. -/
def NewValidator : ValidatorState := { errorCount := 0, errorLog := [] }

/-- `(*Validator).writeErrorLog` (also exposed as `WriteErrorLog`): append
one entry to the log and increment the rejection counter. -/
def writeErrorLog (v : ValidatorState) (customerID reason : String) : ValidatorState :=
  { errorCount := v.errorCount + 1
    errorLog := v.errorLog ++ [{ customerId := customerID, reason := reason }] }

/-- `(*Validator).GetErrorCount`. -/
def GetErrorCount (v : ValidatorState) : Nat := v.errorCount

/-- `types.Sample`.  `CreatedAt`/`UpdatedAt` are embedded times; the Go
zero `time.Time` (for which `IsZero` holds) is embedded as `0`. -/
structure Sample where
  CustomerID : String
  Email : String
  Name : String
  CreatedAt : Int
  UpdatedAt : Int
deriving DecidableEq

/-- Character class of the local part of `isValidEmail`'s pattern:
`[a-z0-9._%+\-]`. -/
def isLocalChar (c : Char) : Bool :=
  (decide ('a' ≤ c) && decide (c ≤ 'z')) || (decide ('0' ≤ c) && decide (c ≤ '9')) ||
    (c == '.') || (c == '_') || (c == '%') || (c == '+') || (c == '-')

/-- Character class of the domain part: `[a-z0-9.\-]`. -/
def isDomainChar (c : Char) : Bool :=
  (decide ('a' ≤ c) && decide (c ≤ 'z')) || (decide ('0' ≤ c) && decide (c ≤ '9')) ||
    (c == '.') || (c == '-')

/-- Character class of the top-level label: `[a-z]`. -/
def isTldChar (c : Char) : Bool :=
  decide ('a' ≤ c) && decide (c ≤ 'z')

/-- Matcher for the part after the `@` of the anchored pattern:
`[a-z0-9.\-]+\.[a-z]{2,4}$`.  The top-level label contains no dot while
the domain class does, so a match must split at the last dot; the
matcher therefore splits off the longest all-lowercase suffix and
requires a dot right before it. -/
def domainTldMatch (rest : List Char) : Bool :=
  match rest.reverse.dropWhile isTldChar with
  | c :: drev =>
      (c == '.') && decide (2 ≤ (rest.reverse.takeWhile isTldChar).length) &&
        decide ((rest.reverse.takeWhile isTldChar).length ≤ 4) &&
        decide (drev ≠ []) && drev.all isDomainChar
  | [] => false

/-- Matcher for the anchored pattern `^[a-z0-9._%+\-]+@[a-z0-9.\-]+\.[a-z]{2,4}$`
of `validator.isValidEmail`.  No class contains `@`, so a match must
split at the first character that is not in the local class, which has
to be an `@`. -/
def emailMatch (cs : List Char) : Bool :=
  match cs.dropWhile isLocalChar with
  | c :: rest => (c == '@') && decide (cs.takeWhile isLocalChar ≠ []) && domainTldMatch rest
  | [] => false

/-- `validator.isValidEmail`. -/
def isValidEmail (email : String) : Bool :=
  emailMatch email.data

/-- `(*Validator).ValidateSample`: the four checks in source order; the
first failing check writes its reason to the error log and returns that
reason as the error.  The sample is a by-value Go parameter, so the
function communicates to its caller only the result and the validator
state; the defaulting of `UpdatedAt` inside the body acts on the local
copy (see `validateSampleLocalCopy`). -/
def ValidateSample (v : ValidatorState) (sample : Sample) :
    Except String Unit × ValidatorState :=
  if sample.CustomerID = "" then
    (.error "customer_id is required", writeErrorLog v sample.CustomerID "customer_id is required")
  else if isValidEmail sample.Email = false then
    (.error "invalid email format", writeErrorLog v sample.CustomerID "invalid email format")
  else if sample.Name = "" then
    (.error "name is required", writeErrorLog v sample.CustomerID "name is required")
  else if sample.CreatedAt = 0 then
    (.error "created_at is required", writeErrorLog v sample.CustomerID "created_at is required")
  else
    (.ok (), v)

/-- The final value of `ValidateSample`'s local variable `sample` (its
by-value parameter) when the body returns, with `now` the wall clock
read by `time.Now()`: on the success path with an unset `UpdatedAt` the
body assigns `time.Now()` to the local copy; every other path leaves it
untouched. -/
def validateSampleLocalCopy (now : Int) (s : Sample) : Sample :=
  if s.CustomerID = "" then s
  else if isValidEmail s.Email = false then s
  else if s.Name = "" then s
  else if s.CreatedAt = 0 then s
  else if s.UpdatedAt = 0 then { s with UpdatedAt := now }
  else s

/-- `service.CustomSample`: the raw JSON record with a textual timestamp. -/
structure CustomSample where
  CustomerID : String
  Email : String
  Name : String
  CreatedAt : String
deriving DecidableEq

/-- `service.ProcessResult`. -/
structure ProcessResult where
  SuccessCount : Nat
  ErrorCount : Nat
deriving DecidableEq

/-- External collaborators of the service, made explicit: the standard
library timestamp parser (`time.Parse` with RFC 3339; `none` embeds a
parse error) and the persistence sink (`none` embeds a successful
insert, `some msg` an insert error with message `msg`). -/
structure ServiceEnv where
  parseTime : String → Option Int
  insertErr : Sample → Option String

/-- Mutable state reachable from `service.SampleService`: the validator,
the rate limiter, and the list of successfully inserted samples. -/
structure ServiceState where
  validator : ValidatorState
  limiter : RateLimiter
  db : List Sample

/-- `(*SampleService).ProcessSample`: parse the timestamp, validate,
rate-check, insert; the first failing stage logs its reason (validation
logs inside `ValidateSample`) and returns an error. -/
def ProcessSample (env : ServiceEnv) (st : ServiceState) (cs : CustomSample) :
    Except String Unit × ServiceState :=
  match env.parseTime cs.CreatedAt with
  | none =>
      (.error ("invalid date format: " ++ cs.CreatedAt),
       { st with validator := writeErrorLog st.validator cs.CustomerID
                   ("invalid date format: " ++ cs.CreatedAt) })
  | some createdAt =>
      let sample : Sample :=
        { CustomerID := cs.CustomerID, Email := cs.Email, Name := cs.Name
          CreatedAt := createdAt, UpdatedAt := 0 }
      match ValidateSample st.validator sample with
      | (.error e, v2) => (.error e, { st with validator := v2 })
      | (.ok _, v2) =>
          let rl := IsAllowed st.limiter sample.CustomerID sample.CreatedAt
          if rl.1 then
            match env.insertErr sample with
            | some msg =>
                (.error ("failed to insert: " ++ msg),
                 { validator := writeErrorLog v2 sample.CustomerID ("failed to insert: " ++ msg)
                   limiter := rl.2, db := st.db })
            | none =>
                (.ok (), { validator := v2, limiter := rl.2, db := st.db ++ [sample] })
          else
            (.error "rate limit exceeded",
             { validator := writeErrorLog v2 sample.CustomerID "rate limit exceeded"
               limiter := rl.2, db := st.db })

/-- The loop body of `(*SampleService).ProcessSamples`: process each record
in order, counting those that return no error. -/
def processLoop (env : ServiceEnv) (st : ServiceState) (samples : List CustomSample) :
    Nat × ServiceState :=
  match samples with
  | [] => (0, st)
  | cs :: rest =>
      let r := ProcessSample env st cs
      let more := processLoop env r.2 rest
      (match r.1 with | .ok _ => more.1 + 1 | .error _ => more.1, more.2)

/-- `(*SampleService).ProcessSamples`: run the loop, then report the local
success counter and the validator's cumulative error counter; the
returned Go error is always nil. -/
def ProcessSamples (env : ServiceEnv) (st : ServiceState) (samples : List CustomSample) :
    Except String ProcessResult × ServiceState :=
  let r := processLoop env st samples
  (.ok { SuccessCount := r.1, ErrorCount := GetErrorCount r.2.validator }, r.2)

/-- Outcome of opening and JSON-decoding the batch file in
`(*SampleService).ProcessSamplesFile`, made explicit: the file may be
unreadable (`os.Open` fails), its contents may fail to decode as the
container JSON, or it yields the record list. -/
inductive FileData where
  | unreadable
  | malformed
  | ok (samples : List CustomSample)
deriving DecidableEq

/-- `(*SampleService).ProcessSamplesFile`: a hard error when the file
cannot be opened or decoded, otherwise delegate to `ProcessSamples`. -/
def ProcessSamplesFile (env : ServiceEnv) (st : ServiceState) (fd : FileData) :
    Except String ProcessResult × ServiceState :=
  match fd with
  | .unreadable => (.error "error opening file", st)
  | .malformed => (.error "error decoding JSON", st)
  | .ok samples => ProcessSamples env st samples

/-! ## Rate limiter theorems -/

/-- Claim C5: in `IsAllowed` the pruning step over an existing key's stored
timestamps keeps exactly those with `t ≥ createdAt - 60s` (inclusive
boundary, so a timestamp exactly sixty seconds older than the supplied
one is still in-window), admission holds exactly when the filtered
count is below the limit, and the stored list becomes the filtered list
with the new timestamp appended on admission and nothing appended on
denial. -/
theorem admit_pruning_inclusive_boundary (r : RateLimiter) (k : String) (a : Int)
    (ts : List Int) (h : r.requests k = some ts) :
    ((IsAllowed r k a).1 = true ↔
      ((ts.filter (fun t => decide (a - oneMinute ≤ t))).length : Int) < r.requestsPerMinute) ∧
    (IsAllowed r k a).2.requests k =
      some ((ts.filter (fun t => decide (a - oneMinute ≤ t))) ++
        (if (IsAllowed r k a).1 then [a] else [])) ∧
    (∀ t ∈ ts, (t ∈ ts.filter (fun t => decide (a - oneMinute ≤ t)) ↔ a - oneMinute ≤ t)) ∧
    (∀ t ∈ ts, t = a - oneMinute → t ∈ ts.filter (fun t => decide (a - oneMinute ≤ t))) := by
  refine ⟨?_, ?_, ?_, ?_⟩
  · simp only [IsAllowed, h]
    by_cases hc : ((ts.filter (fun t => decide (a - oneMinute ≤ t))).length : Int) <
        r.requestsPerMinute
    · rw [if_pos hc]
      exact iff_of_true rfl hc
    · rw [if_neg hc]
      exact iff_of_false (by simp) hc
  · simp only [IsAllowed, h]
    by_cases hc : ((ts.filter (fun t => decide (a - oneMinute ≤ t))).length : Int) <
        r.requestsPerMinute
    · rw [if_pos hc]
      simp [mapInsert]
    · rw [if_neg hc]
      simp [mapInsert]
  · intro t ht
    simp [List.mem_filter, ht]
  · intro t ht he
    subst he
    simp [List.mem_filter, ht]

/-- Witness for C5: with limit 2, stored history `[0, 30]` and a request at
time 60, the timestamp `0` is exactly sixty seconds old and is kept by
the pruning step. -/
theorem admit_pruning_inclusive_boundary_witness :
    (0 : Int) ∈ ([0, 30].filter (fun t => decide ((60 : Int) - oneMinute ≤ t))) :=
  (admit_pruning_inclusive_boundary
    { requestsPerMinute := 2, requests := mapInsert (fun _ => none) "c5" [0, 30] }
    "c5" 60 [0, 30] (by simp [mapInsert])).2.2.2 0 (by decide) (by decide)

/-- Claim C9 (corrected): `GetRemainingRequests` is read-only — the limiter
state it returns is its receiver unchanged — and a repeated call with no
intervening admission and the same current time returns the same value.
(As stated the claim is false: the value depends on the wall clock, see
the counterexample.) -/
theorem remaining_read_only_and_stable (r : RateLimiter) (k : String) (now : Int) :
    (GetRemainingRequests r k now).2 = r ∧
    (GetRemainingRequests (GetRemainingRequests r k now).2 k now).1 =
      (GetRemainingRequests r k now).1 := by
  exact ⟨rfl, rfl⟩

/-- Counterexample for C9: after a single admission at time 0 with limit 5,
`GetRemainingRequests` read at wall-clock time 30 returns 4, but read
again at wall-clock time 61 — with no intervening admission — returns 5,
because the stored timestamp has aged out of the window measured from
the current time. -/
theorem remaining_counterexample :
    (GetRemainingRequests (IsAllowed (NewRateLimiter 5) "k9" 0).2 "k9" 30).1 = 4 ∧
    (GetRemainingRequests (IsAllowed (NewRateLimiter 5) "k9" 0).2 "k9" 61).1 = 5 ∧
    (4 : Int) ≠ 5 := by
  decide

/-- Per-key history bound: every stored history of `r` has at most `N`
timestamps. -/
def HistBound (N : Int) (r : RateLimiter) : Prop :=
  ∀ k h, r.requests k = some h → (h.length : Int) ≤ N

/-- One `IsAllowed` call preserves the configured limit and the per-key
history bound, provided the limit is at least 1 (the unseen-key path
seeds one timestamp without checking the limit). -/
lemma isAllowed_preserves_bound (N : Int) (hN : 1 ≤ N) (r : RateLimiter)
    (hr : r.requestsPerMinute = N) (hb : HistBound N r) (key : String) (t : Int) :
    (IsAllowed r key t).2.requestsPerMinute = N ∧ HistBound N (IsAllowed r key t).2 := by
  cases hreq : r.requests key with
  | none =>
      refine ⟨by simp only [IsAllowed, hreq]; exact hr, ?_⟩
      intro k h hk
      simp only [IsAllowed, hreq, mapInsert] at hk
      by_cases hkey : k = key
      · rw [if_pos hkey] at hk
        obtain rfl : [t] = h := Option.some.inj hk
        simpa using hN
      · rw [if_neg hkey] at hk
        exact hb k h hk
  | some ts =>
      by_cases hc : (((ts.filter (fun x => decide (t - oneMinute ≤ x))).length : Int) <
          r.requestsPerMinute)
      · refine ⟨by simp only [IsAllowed, hreq]; rw [if_pos hc]; exact hr, ?_⟩
        intro k h hk
        simp only [IsAllowed, hreq] at hk
        rw [if_pos hc] at hk
        simp only [mapInsert] at hk
        by_cases hkey : k = key
        · rw [if_pos hkey] at hk
          obtain rfl : ts.filter (fun x => decide (t - oneMinute ≤ x)) ++ [t] = h :=
            Option.some.inj hk
          have hts : (ts.length : Int) ≤ N := hb key ts hreq
          have hle : (ts.filter (fun x => decide (t - oneMinute ≤ x))).length ≤ ts.length :=
            List.length_filter_le _ _
          rw [hr] at hc
          simp only [List.length_append, List.length_cons, List.length_nil]
          push_cast
          omega
        · rw [if_neg hkey] at hk
          exact hb k h hk
      · refine ⟨by simp only [IsAllowed, hreq]; rw [if_neg hc]; exact hr, ?_⟩
        intro k h hk
        simp only [IsAllowed, hreq] at hk
        rw [if_neg hc] at hk
        simp only [mapInsert] at hk
        by_cases hkey : k = key
        · rw [if_pos hkey] at hk
          obtain rfl : ts.filter (fun x => decide (t - oneMinute ≤ x)) = h :=
            Option.some.inj hk
          have hts : (ts.length : Int) ≤ N := hb key ts hreq
          have hle : (ts.filter (fun x => decide (t - oneMinute ≤ x))).length ≤ ts.length :=
            List.length_filter_le _ _
          omega
        · rw [if_neg hkey] at hk
          exact hb k h hk

/-- Running any sequence of admissions preserves the limit and the history
bound. -/
lemma runAll_preserves_bound (N : Int) (hN : 1 ≤ N) :
    ∀ (calls : List (String × Int)) (r : RateLimiter),
      r.requestsPerMinute = N → HistBound N r →
      (runAll r calls).requestsPerMinute = N ∧ HistBound N (runAll r calls) := by
  intro calls
  induction calls with
  | nil => intro r hr hb; exact ⟨hr, hb⟩
  | cons c rest ih =>
      intro r hr hb
      have step := isAllowed_preserves_bound N hN r hr hb c.1 c.2
      exact ih _ step.1 step.2

/-- Claim C10: for a limiter constructed with limit `N ≥ 1`, after any
sequence of admission calls every key's stored history holds at most `N`
timestamps, and `GetRemainingRequests` always returns a value between 0
and `N`, never negative. -/
theorem history_bounded_and_remaining_in_range (N : Int) (hN : 1 ≤ N)
    (calls : List (String × Int)) :
    HistBound N (runAll (NewRateLimiter N) calls) ∧
    ∀ k now, 0 ≤ (GetRemainingRequests (runAll (NewRateLimiter N) calls) k now).1 ∧
      (GetRemainingRequests (runAll (NewRateLimiter N) calls) k now).1 ≤ N := by
  have base : HistBound N (NewRateLimiter N) := by
    intro k h hk
    simp [NewRateLimiter] at hk
  have run := runAll_preserves_bound N hN calls (NewRateLimiter N) rfl base
  refine ⟨run.2, ?_⟩
  intro k now
  cases hreq : (runAll (NewRateLimiter N) calls).requests k with
  | none =>
      simp only [GetRemainingRequests, hreq]
      rw [run.1]
      constructor <;> omega
  | some ts =>
      have hts : (ts.length : Int) ≤ N := run.2 k ts hreq
      have hle : ((ts.filter (fun x => decide (now - oneMinute ≤ x))).length : Int) ≤
          (ts.length : Int) := by
        exact_mod_cast List.length_filter_le _ _
      simp only [GetRemainingRequests, hreq]
      rw [run.1]
      constructor <;> omega

/-- Witness for C10: limit 5, two admissions for key `a`; the remaining
count read at time 30 lies between 0 and 5. -/
theorem history_bounded_witness :
    0 ≤ (GetRemainingRequests (runAll (NewRateLimiter 5) [("a", 0), ("a", 10)]) "a" 30).1 ∧
    (GetRemainingRequests (runAll (NewRateLimiter 5) [("a", 0), ("a", 10)]) "a" 30).1 ≤ 5 :=
  (history_bounded_and_remaining_in_range 5 (by decide) [("a", 0), ("a", 10)]).2 "a" 30

/-- When every pending call time is within the window of every stored
timestamp and the call times are pairwise within the window of each
other, pruning never removes anything, so the i-th call (0-based) is
admitted exactly when the stored-history length plus i is below the
limit. -/
lemma runResults_no_prune_formula (N : Int) (k : String) :
    ∀ (ts : List Int) (r : RateLimiter) (h : List Int),
      r.requestsPerMinute = N →
      r.requests k = some h →
      (∀ t ∈ ts, ∀ x ∈ h, t - oneMinute ≤ x) →
      (∀ t ∈ ts, ∀ u ∈ ts, t - oneMinute ≤ u) →
      (runResults r k ts).1 =
        (List.range ts.length).map (fun i => decide (((h.length + i : Nat) : Int) < N)) := by
  intro ts
  induction ts with
  | nil =>
      intro r h _ _ _ _
      simp [runResults]
  | cons t rest ih =>
      intro r h hrN hreq hwin hpair
      have hfil : h.filter (fun x => decide (t - oneMinute ≤ x)) = h :=
        List.filter_eq_self.mpr fun x hx => decide_eq_true (hwin t (by simp) x hx)
      simp only [runResults, IsAllowed, hreq, hfil, List.length_cons]
      rw [List.range_succ_eq_map, List.map_cons, List.map_map]
      by_cases hc : ((h.length : Int) < r.requestsPerMinute)
      · rw [if_pos hc]
        have hreq2 : (mapInsert r.requests k (h ++ [t])) k = some (h ++ [t]) := by
          simp [mapInsert]
        have hwin2 : ∀ u ∈ rest, ∀ x ∈ h ++ [t], u - oneMinute ≤ x := by
          intro u hu x hx
          rcases List.mem_append.mp hx with hx | hx
          · exact hwin u (by simp [hu]) x hx
          · rw [List.mem_singleton.mp hx]
            exact hpair u (by simp [hu]) t (by simp)
        have hpair2 : ∀ u ∈ rest, ∀ w ∈ rest, u - oneMinute ≤ w := by
          intro u hu w hw
          exact hpair u (by simp [hu]) w (by simp [hw])
        have ih2 := ih { r with requests := mapInsert r.requests k (h ++ [t]) }
          (h ++ [t]) hrN hreq2 hwin2 hpair2
        simp only [List.length_append, List.length_cons, List.length_nil] at ih2
        rw [List.cons.injEq]
        refine ⟨by rw [hrN] at hc; simp [hc], ?_⟩
        rw [ih2]
        apply List.map_congr_left
        intro i _
        simp only [Function.comp_apply]
        apply decide_eq_decide.mpr
        push_cast
        omega
      · rw [if_neg hc]
        have hreq2 : (mapInsert r.requests k h) k = some h := by
          simp [mapInsert]
        have hwin2 : ∀ u ∈ rest, ∀ x ∈ h, u - oneMinute ≤ x := by
          intro u hu x hx
          exact hwin u (by simp [hu]) x hx
        have hpair2 : ∀ u ∈ rest, ∀ w ∈ rest, u - oneMinute ≤ w := by
          intro u hu w hw
          exact hpair u (by simp [hu]) w (by simp [hw])
        have ih2 := ih { r with requests := mapInsert r.requests k h } h hrN hreq2 hwin2 hpair2
        rw [List.cons.injEq]
        rw [hrN] at hc
        refine ⟨by simp [hc], ?_⟩
        rw [ih2]
        apply List.map_congr_left
        intro i _
        simp only [Function.comp_apply]
        apply decide_eq_decide.mpr
        constructor
        · intro hlt
          push_cast at hlt ⊢
          omega
        · intro hlt
          push_cast at hlt ⊢
          omega

/-- The boolean list `i < m` over `i ∈ range (m+1)` is `m` times `true`
followed by one `false`. -/
lemma range_map_decide_lt_last (m : Nat) :
    (List.range (m + 1)).map (fun i => decide (i < m)) = List.replicate m true ++ [false] := by
  rw [List.range_succ, List.map_append]
  have h1 : (List.range m).map (fun i => decide (i < m)) = List.replicate m true := by
    apply List.eq_replicate_iff.mpr
    refine ⟨by simp, ?_⟩
    intro b hb
    simp only [List.mem_map, List.mem_range] at hb
    obtain ⟨i, hi, rfl⟩ := hb
    exact decide_eq_true hi
  rw [h1]
  simp

/-- Claim C1 (corrected to limits `N ≥ 1`): for a limiter with limit
`N ≥ 1` and a sequence of `N + 1` admission calls for one key whose
supplied timestamps all lie within one trailing sixty-second window of
each other, the first `N` calls are allowed and the `(N+1)`-th is
denied.  (At `N = 0` the claim as stated fails, see the
counterexample.) -/
theorem first_n_allowed_next_denied (n : Nat) (hn : 1 ≤ n) (k : String) (ts : List Int)
    (hlen : ts.length = n + 1)
    (hpair : ∀ t ∈ ts, ∀ u ∈ ts, t - oneMinute ≤ u) :
    (runResults (NewRateLimiter (n : Int)) k ts).1 = List.replicate n true ++ [false] := by
  obtain ⟨m, rfl⟩ : ∃ m, n = m + 1 := ⟨n - 1, by omega⟩
  cases ts with
  | nil => simp at hlen
  | cons t rest =>
      have hlen2 : rest.length = m + 1 := by
        simpa using hlen
      simp only [runResults, NewRateLimiter, IsAllowed]
      have hreq2 : (mapInsert (fun _ => none) k [t]) k = some [t] := by
        simp [mapInsert]
      have hwin2 : ∀ u ∈ rest, ∀ x ∈ [t], u - oneMinute ≤ x := by
        intro u hu x hx
        rw [List.mem_singleton.mp hx]
        exact hpair u (by simp [hu]) t (by simp)
      have hpair2 : ∀ u ∈ rest, ∀ w ∈ rest, u - oneMinute ≤ w := by
        intro u hu w hw
        exact hpair u (by simp [hu]) w (by simp [hw])
      have ih2 := runResults_no_prune_formula ((m + 1 : Nat) : Int) k rest
        { requestsPerMinute := ((m + 1 : Nat) : Int), requests := mapInsert (fun _ => none) k [t] }
        [t] rfl hreq2 hwin2 hpair2
      simp only [List.length_singleton] at ih2
      rw [List.replicate_succ, List.cons_append, List.cons.injEq]
      refine ⟨rfl, ?_⟩
      rw [ih2, hlen2]
      have hcongr : (List.range (m + 1)).map (fun i => decide (((1 + i : Nat) : Int) < ((m + 1 : Nat) : Int))) =
          (List.range (m + 1)).map (fun i => decide (i < m)) := by
        apply List.map_congr_left
        intro i _
        apply decide_eq_decide.mpr
        push_cast
        omega
      rw [hcongr, range_map_decide_lt_last]

/-- Counterexample for C1: with configured limit 0 the first admission call
for a fresh key — which is the `(N+1)`-th call at `N = 0` — is allowed,
because the unseen-key path seeds the history without checking the
limit, while the claim demands that it be denied. -/
theorem first_call_allowed_at_limit_zero :
    (runResults (NewRateLimiter 0) "c1" [100]).1 = [true] ∧
    (runResults (NewRateLimiter 0) "c1" [100]).1 ≠ List.replicate 0 true ++ [false] := by
  decide

/-- Witness for C1: limit 2, three calls within one window; results are
allowed, allowed, denied. -/
theorem first_n_allowed_next_denied_witness :
    (runResults (NewRateLimiter ((2 : Nat) : Int)) "c1w" [0, 10, 20]).1 =
      List.replicate 2 true ++ [false] :=
  first_n_allowed_next_denied 2 (by decide) "c1w" [0, 10, 20] (by decide) (by decide)

/-- With limit at least 2, a call exactly one minute after the previous one
always finds exactly the previous timestamp in-window (the strictly
older ones are pruned, the exactly-sixty-second-old one is retained),
so every call of a sixty-second-spaced train is admitted. -/
lemma spaced_exactly_one_minute_aux (N : Int) (hN : 2 ≤ N) (k : String) :
    ∀ (j : Nat) (next : Int) (r : RateLimiter) (h : List Int),
      r.requestsPerMinute = N →
      r.requests k = some h →
      h.filter (fun x => decide (next - oneMinute ≤ x)) = [next - oneMinute] →
      (runResults r k ((List.range j).map (fun i : Nat => next + oneMinute * (i : Int)))).1 =
        List.replicate j true := by
  intro j
  induction j with
  | zero =>
      intro next r h _ _ _
      simp [runResults]
  | succ m ih =>
      intro next r h hrN hreq hfil
      rw [List.range_succ_eq_map, List.map_cons, List.map_map]
      simp only [Nat.cast_zero, mul_zero, add_zero]
      simp only [runResults, IsAllowed, hreq, hfil]
      rw [if_pos (by rw [hrN]; simp only [List.length_cons, List.length_nil]; omega)]
      have hreq2 : (mapInsert r.requests k ([next - oneMinute] ++ [next])) k =
          some [next - oneMinute, next] := by
        simp [mapInsert]
      have hfil2 : [next - oneMinute, next].filter
          (fun x => decide ((next + oneMinute) - oneMinute ≤ x)) =
          [(next + oneMinute) - oneMinute] := by
        have h1 : decide ((next + oneMinute) - oneMinute ≤ next - oneMinute) = false := by
          apply decide_eq_false
          simp only [oneMinute]
          omega
        have h2 : decide ((next + oneMinute) - oneMinute ≤ next) = true := by
          apply decide_eq_true
          omega
        rw [List.filter_cons, List.filter_cons, List.filter_nil, h1, h2]
        simp
      have ih2 := ih (next + oneMinute)
        { r with requests := mapInsert r.requests k ([next - oneMinute] ++ [next]) }
        [next - oneMinute, next] hrN hreq2 hfil2
      rw [List.replicate_succ, List.cons.injEq]
      refine ⟨rfl, ?_⟩
      have hcongr : (List.range m).map
          ((fun i : Nat => next + oneMinute * (i : Int)) ∘ Nat.succ) =
          (List.range m).map (fun i : Nat => (next + oneMinute) + oneMinute * (i : Int)) := by
        apply List.map_congr_left
        intro i _
        simp only [Function.comp_apply]
        push_cast
        ring
      rw [hcongr]
      exact ih2

/-- Claim C4 (corrected): for every key and every limit `N ≥ 2`, admission
calls spaced exactly sixty seconds apart are always allowed: pruning
removes the timestamps strictly older than sixty seconds (one exactly
sixty seconds old is retained), so each call sees exactly one in-window
timestamp and `1 < N`.  (At `N = 1` the claim fails, see the
counterexample: the retained sixty-second-old timestamp fills the
window.) -/
theorem spaced_sixty_seconds_allowed (N : Int) (hN : 2 ≤ N) (k : String) (T : Int) (j : Nat) :
    (runResults (NewRateLimiter N) k
      ((List.range j).map (fun i : Nat => T + oneMinute * (i : Int)))).1 =
      List.replicate j true := by
  cases j with
  | zero => simp [runResults]
  | succ m =>
      rw [List.range_succ_eq_map, List.map_cons, List.map_map]
      simp only [Nat.cast_zero, mul_zero, add_zero]
      simp only [runResults, NewRateLimiter, IsAllowed]
      have hreq2 : (mapInsert (fun _ => none) k [T]) k = some [T] := by
        simp [mapInsert]
      have hfil2 : [T].filter (fun x => decide ((T + oneMinute) - oneMinute ≤ x)) =
          [(T + oneMinute) - oneMinute] := by
        have h2 : decide ((T + oneMinute) - oneMinute ≤ T) = true := by
          apply decide_eq_true
          omega
        rw [List.filter_cons, List.filter_nil, h2]
        simp
      have ih2 := spaced_exactly_one_minute_aux N hN k m (T + oneMinute)
        { requestsPerMinute := N, requests := mapInsert (fun _ => none) k [T] }
        [T] rfl hreq2 hfil2
      rw [List.replicate_succ, List.cons.injEq]
      refine ⟨rfl, ?_⟩
      have hcongr : (List.range m).map
          ((fun i : Nat => T + oneMinute * (i : Int)) ∘ Nat.succ) =
          (List.range m).map (fun i : Nat => (T + oneMinute) + oneMinute * (i : Int)) := by
        apply List.map_congr_left
        intro i _
        simp only [Function.comp_apply]
        push_cast
        ring
      rw [hcongr]
      exact ih2

/-- Counterexample for C4: with limit 1, two calls exactly sixty seconds
apart give allowed then denied — the sixty-second-old timestamp is
still in-window (it is not pruned), so the second call is rejected,
refuting both the always-allowed conclusion and the premise that
anything sixty seconds old or older has been pruned. -/
theorem spaced_sixty_denied_at_limit_one :
    (runResults (NewRateLimiter 1) "c4" [0, 60]).1 = [true, false] ∧
    (runResults (NewRateLimiter 1) "c4" [0, 60]).1 ≠ List.replicate 2 true := by
  decide

/-- Witness for C4: limit 2, three calls at times 0, 60, 120; all allowed. -/
theorem spaced_sixty_seconds_allowed_witness :
    (runResults (NewRateLimiter 2) "c4w"
      ((List.range 3).map (fun i : Nat => 0 + oneMinute * (i : Int)))).1 =
      List.replicate 3 true :=
  spaced_sixty_seconds_allowed 2 (by decide) "c4w" 0 3

/-! ## Validator theorems -/

/-- Claim C6: `ValidateSample` evaluates its rules in the fixed precedence
order — empty customer id gives "customer_id is required", then failing
email grammar gives "invalid email format", then empty display name
gives "name is required", then zero creation timestamp gives
"created_at is required" — the first failing rule alone determines the
returned reason and appends exactly one log entry carrying that reason
(later rules contribute nothing once one fails), and on success nothing
is logged. -/
theorem validate_rule_precedence (v : ValidatorState) (s : Sample) :
    (s.CustomerID = "" →
      ValidateSample v s =
        (.error "customer_id is required",
          writeErrorLog v s.CustomerID "customer_id is required")) ∧
    (s.CustomerID ≠ "" → isValidEmail s.Email = false →
      ValidateSample v s =
        (.error "invalid email format", writeErrorLog v s.CustomerID "invalid email format")) ∧
    (s.CustomerID ≠ "" → isValidEmail s.Email = true → s.Name = "" →
      ValidateSample v s =
        (.error "name is required", writeErrorLog v s.CustomerID "name is required")) ∧
    (s.CustomerID ≠ "" → isValidEmail s.Email = true → s.Name ≠ "" → s.CreatedAt = 0 →
      ValidateSample v s =
        (.error "created_at is required", writeErrorLog v s.CustomerID "created_at is required")) ∧
    (s.CustomerID ≠ "" → isValidEmail s.Email = true → s.Name ≠ "" → s.CreatedAt ≠ 0 →
      ValidateSample v s = (.ok (), v)) ∧
    (∀ e v2, ValidateSample v s = (.error e, v2) →
      v2.errorCount = v.errorCount + 1 ∧
      v2.errorLog = v.errorLog ++ [{ customerId := s.CustomerID, reason := e }]) := by
  refine ⟨?_, ?_, ?_, ?_, ?_, ?_⟩
  · intro h1
    simp [ValidateSample, h1]
  · intro h1 h2
    simp [ValidateSample, h1, h2]
  · intro h1 h2 h3
    simp [ValidateSample, h1, h2, h3]
  · intro h1 h2 h3 h4
    simp [ValidateSample, h1, h2, h3, h4]
  · intro h1 h2 h3 h4
    simp [ValidateSample, h1, h2, h3, h4]
  · intro e v2 h
    simp only [ValidateSample] at h
    split_ifs at h <;>
      first
        | (simp only [Prod.mk.injEq, Except.error.injEq] at h
           obtain ⟨he, hv⟩ := h
           subst he
           subst hv
           simp [writeErrorLog])
        | simp at h

/-- Witness for C6: a sample with three violations (bad email, empty name,
zero creation time) is rejected with the email reason alone — the first
failing rule in the precedence order — and exactly one entry is logged. -/
theorem validate_rule_precedence_witness :
    ValidateSample NewValidator
        { CustomerID := "c6", Email := "not-an-email", Name := "", CreatedAt := 0, UpdatedAt := 0 } =
      (.error "invalid email format", writeErrorLog NewValidator "c6" "invalid email format") :=
  (validate_rule_precedence NewValidator
    { CustomerID := "c6", Email := "not-an-email", Name := "", CreatedAt := 0, UpdatedAt := 0 }).2.1
    (by decide) (by decide)

/-- Claim C3 (code bug): on a record that passes validation with an unset
update timestamp, the body of `ValidateSample` assigns the current time
to the update timestamp of its by-value local copy
(`validateSampleLocalCopy` yields `UpdatedAt = now`), but the parameter
is passed by value, so nothing is visible to the caller: `ProcessSample`
persists the record with `UpdatedAt` still zero, not the current time. -/
theorem updated_at_default_not_visible_to_caller :
    (ValidateSample NewValidator
        { CustomerID := "c3", Email := "a@b.cd", Name := "Ann",
          CreatedAt := 100, UpdatedAt := 0 }).1 = Except.ok () ∧
    (validateSampleLocalCopy 777
        { CustomerID := "c3", Email := "a@b.cd", Name := "Ann",
          CreatedAt := 100, UpdatedAt := 0 }).UpdatedAt = 777 ∧
    (ProcessSample
        { parseTime := fun t => if t = "2024-03-26T12:00:00Z" then some 100 else none
          insertErr := fun _ => none }
        { validator := NewValidator, limiter := NewRateLimiter 5, db := [] }
        { CustomerID := "c3", Email := "a@b.cd", Name := "Ann",
          CreatedAt := "2024-03-26T12:00:00Z" }).1 = Except.ok () ∧
    (ProcessSample
        { parseTime := fun t => if t = "2024-03-26T12:00:00Z" then some 100 else none
          insertErr := fun _ => none }
        { validator := NewValidator, limiter := NewRateLimiter 5, db := [] }
        { CustomerID := "c3", Email := "a@b.cd", Name := "Ann",
          CreatedAt := "2024-03-26T12:00:00Z" }).2.db =
      [{ CustomerID := "c3", Email := "a@b.cd", Name := "Ann",
          CreatedAt := 100, UpdatedAt := 0 }] ∧
    (777 : Int) ≠ 0 := by
  refine ⟨rfl, rfl, rfl, rfl, by decide⟩

/-! ## Orchestrator theorems -/

/-- `ValidateSample` increments the rejection counter by exactly one on
failure and leaves the validator untouched on success. -/
lemma validateSample_errorCount (v : ValidatorState) (s : Sample) :
    (ValidateSample v s).2.errorCount =
      v.errorCount + (match (ValidateSample v s).1 with | .ok _ => 0 | .error _ => 1) := by
  simp only [ValidateSample]
  split_ifs <;> simp [writeErrorLog]

/-- `ProcessSample` increments the shared rejection counter by exactly one
when it returns an error, and not at all when it succeeds. -/
lemma processSample_errorCount (env : ServiceEnv) (st : ServiceState) (cs : CustomSample) :
    (ProcessSample env st cs).2.validator.errorCount =
      st.validator.errorCount +
        (match (ProcessSample env st cs).1 with | .ok _ => 0 | .error _ => 1) := by
  simp only [ProcessSample]
  cases hp : env.parseTime cs.CreatedAt with
  | none => simp [writeErrorLog]
  | some c =>
      dsimp only
      have hval := validateSample_errorCount st.validator
        { CustomerID := cs.CustomerID, Email := cs.Email, Name := cs.Name
          CreatedAt := c, UpdatedAt := 0 }
      rcases hv : ValidateSample st.validator
        { CustomerID := cs.CustomerID, Email := cs.Email, Name := cs.Name
          CreatedAt := c, UpdatedAt := 0 } with ⟨res, v2⟩
      rw [hv] at hval
      cases res with
      | error e => simpa using hval
      | ok u =>
          simp only at hval
          by_cases hrl : (IsAllowed st.limiter cs.CustomerID c).1 = true
          · cases hi : env.insertErr
                { CustomerID := cs.CustomerID, Email := cs.Email, Name := cs.Name
                  CreatedAt := c, UpdatedAt := 0 } with
            | none => simp [hrl, hi, hval]
            | some msg => simp [hrl, hi, writeErrorLog, hval]
          · simp [hrl, writeErrorLog, hval]

/-- Over a batch, the number of successes plus the rejections added during
the batch equals the number of records processed. -/
lemma processLoop_count (env : ServiceEnv) :
    ∀ (samples : List CustomSample) (st : ServiceState),
      (processLoop env st samples).1 + (processLoop env st samples).2.validator.errorCount =
        samples.length + st.validator.errorCount := by
  intro samples
  induction samples with
  | nil =>
      intro st
      simp [processLoop]
  | cons cs rest ih =>
      intro st
      have hrec := processSample_errorCount env st cs
      have hih := ih (ProcessSample env st cs).2
      simp only [processLoop]
      cases hres : (ProcessSample env st cs).1 with
      | ok u =>
          rw [hres] at hrec
          simp only at hrec
          simp only [List.length_cons]
          omega
      | error e =>
          rw [hres] at hrec
          simp only at hrec
          simp only [List.length_cons]
          omega

/-- Claim C2 (corrected): `ProcessSamples` always returns a result whose
success count plus the rejections added during the batch equals the
number of records attempted, and whose `ErrorCount` is the validator's
cumulative rejection counter; hence `SuccessCount + ErrorCount` equals
the batch size exactly when that counter is zero at batch start (a
fresh service) — across repeated batches the counter is cumulative, so
the literal per-batch equation fails (see the counterexample). -/
theorem batch_counts_account_for_every_record (env : ServiceEnv) (st : ServiceState)
    (samples : List CustomSample) :
    ∃ res, (ProcessSamples env st samples).1 = Except.ok res ∧
      res.ErrorCount = (ProcessSamples env st samples).2.validator.errorCount ∧
      res.SuccessCount + res.ErrorCount = samples.length + st.validator.errorCount := by
  refine ⟨_, rfl, rfl, ?_⟩
  exact processLoop_count env samples st

/-- Counterexample for C2: one batch with a single unparsable record leaves
the shared counter at 1; a second batch with a single fully valid record
then reports `SuccessCount = 1` and `ErrorCount = 1`, so success plus
failure is 2 although only 1 record was attempted in that batch. -/
theorem batch_counts_counterexample :
    (ProcessSamples
      { parseTime := fun t => if t = "2024-03-26T12:00:00Z" then some 100 else none
        insertErr := fun _ => none }
      ((ProcessSamples
        { parseTime := fun t => if t = "2024-03-26T12:00:00Z" then some 100 else none
          insertErr := fun _ => none }
        { validator := NewValidator, limiter := NewRateLimiter 5, db := [] }
        [{ CustomerID := "c2a", Email := "a@b.cd", Name := "Bob", CreatedAt := "bad" }]).2)
      [{ CustomerID := "c2b", Email := "a@b.cd", Name := "Bob",
         CreatedAt := "2024-03-26T12:00:00Z" }]).1 =
      Except.ok { SuccessCount := 1, ErrorCount := 1 } ∧
    1 + 1 ≠
      ([{ CustomerID := "c2b", Email := "a@b.cd", Name := "Bob",
          CreatedAt := "2024-03-26T12:00:00Z" }] : List CustomSample).length := by
  refine ⟨rfl, by decide⟩

/-- Claim C8: `ProcessSamplesFile` fails fatally exactly when the batch
container cannot be read or parsed as container-level JSON; in that
case the service state — error log, rejection counter, database — is
returned untouched (no per-record logs are written), while for a
well-formed container the call always returns a `ProcessResult`: every
per-record failure is absorbed into that record's rejection and never
aborts the batch. -/
theorem fatal_only_for_malformed_container (env : ServiceEnv) (st : ServiceState)
    (fd : FileData) :
    ((∃ e, (ProcessSamplesFile env st fd).1 = Except.error e) ↔
      (fd = FileData.unreadable ∨ fd = FileData.malformed)) ∧
    ((fd = FileData.unreadable ∨ fd = FileData.malformed) →
      (ProcessSamplesFile env st fd).2 = st) ∧
    (∀ samples, fd = FileData.ok samples →
      ∃ res, (ProcessSamplesFile env st fd).1 = Except.ok res) := by
  cases fd with
  | unreadable =>
      refine ⟨?_, ?_, ?_⟩
      · simp [ProcessSamplesFile]
      · intro _
        rfl
      · intro samples h
        cases h
  | malformed =>
      refine ⟨?_, ?_, ?_⟩
      · simp [ProcessSamplesFile]
      · intro _
        rfl
      · intro samples h
        cases h
  | ok samples =>
      refine ⟨?_, ?_, ?_⟩
      · simp [ProcessSamplesFile, ProcessSamples]
      · rintro (h | h) <;> cases h
      · intro samples2 h
        cases h
        exact ⟨_, rfl⟩

/-- Witness for C8: a malformed container leaves a fresh service state
untouched. -/
theorem fatal_only_for_malformed_container_witness :
    (ProcessSamplesFile { parseTime := fun _ => none, insertErr := fun _ => none }
        { validator := NewValidator, limiter := NewRateLimiter 5, db := [] }
        FileData.malformed).2 =
      { validator := NewValidator, limiter := NewRateLimiter 5, db := [] } :=
  (fatal_only_for_malformed_container
    { parseTime := fun _ => none, insertErr := fun _ => none }
    { validator := NewValidator, limiter := NewRateLimiter 5, db := [] }
    FileData.malformed).2.1 (Or.inr rfl)

/-! ## Email grammar theorems -/

/-- Spec-side formulation of the local-part character set: "lowercase
letters, digits, and the set `. _ % + -`". -/
def LocalCharSpec (c : Char) : Prop :=
  ('a' ≤ c ∧ c ≤ 'z') ∨ ('0' ≤ c ∧ c ≤ '9') ∨
    c = '.' ∨ c = '_' ∨ c = '%' ∨ c = '+' ∨ c = '-'

/-- Spec-side formulation of the domain character set: "lowercase letters,
digits, `.` and `-`". -/
def DomainCharSpec (c : Char) : Prop :=
  ('a' ≤ c ∧ c ≤ 'z') ∨ ('0' ≤ c ∧ c ≤ '9') ∨ c = '.' ∨ c = '-'

/-- Spec-side formulation of the top-level-label character set: "2–4
lowercase letters" (the length bounds live in the grammar theorem). -/
def TldCharSpec (c : Char) : Prop :=
  'a' ≤ c ∧ c ≤ 'z'

instance (c : Char) : Decidable (LocalCharSpec c) := by
  unfold LocalCharSpec
  infer_instance

instance (c : Char) : Decidable (DomainCharSpec c) := by
  unfold DomainCharSpec
  infer_instance

instance (c : Char) : Decidable (TldCharSpec c) := by
  unfold TldCharSpec
  infer_instance

/-- The matcher's local character class agrees with the spec's wording. -/
lemma isLocalChar_iff (c : Char) : isLocalChar c = true ↔ LocalCharSpec c := by
  simp only [isLocalChar, LocalCharSpec, Bool.or_eq_true, Bool.and_eq_true,
    decide_eq_true_eq, beq_iff_eq]
  tauto

/-- The matcher's domain character class agrees with the spec's wording. -/
lemma isDomainChar_iff (c : Char) : isDomainChar c = true ↔ DomainCharSpec c := by
  simp only [isDomainChar, DomainCharSpec, Bool.or_eq_true, Bool.and_eq_true,
    decide_eq_true_eq, beq_iff_eq]
  tauto

/-- The matcher's top-level-label character class agrees with the spec's
wording. -/
lemma isTldChar_iff (c : Char) : isTldChar c = true ↔ TldCharSpec c := by
  simp only [isTldChar, TldCharSpec, Bool.and_eq_true, decide_eq_true_eq]

/-- `takeWhile`/`dropWhile` are determined by any split whose prefix is all
inside the class and whose splitting character is outside it. -/
lemma takeWhile_dropWhile_of_split {p : Char → Bool} :
    ∀ (a : List Char) (x : Char) (b : List Char),
      (∀ c ∈ a, p c = true) → p x = false →
      (a ++ x :: b).takeWhile p = a ∧ (a ++ x :: b).dropWhile p = x :: b := by
  intro a
  induction a with
  | nil =>
      intro x b _ hx
      simp [List.takeWhile_cons, List.dropWhile_cons, hx]
  | cons c a ih =>
      intro x b ha hx
      have hc : p c = true := ha c (by simp)
      have ih2 := ih x b (fun d hd => ha d (by simp [hd])) hx
      simp [List.takeWhile_cons, List.dropWhile_cons, hc, ih2.1, ih2.2]

/-- An uppercase character lies in none of the pattern's character classes
and is neither the `@` nor the `.` separator. -/
lemma isUpper_rejected_everywhere (c : Char) (h : c.isUpper = true) :
    isLocalChar c = false ∧ isDomainChar c = false ∧ isTldChar c = false ∧
      c ≠ '@' ∧ c ≠ '.' := by
  simp only [Char.isUpper, Bool.and_eq_true, decide_eq_true_eq] at h
  have h1 : (65 : Nat) ≤ c.val.toNat := h.1
  have h2 : c.val.toNat ≤ (90 : Nat) := h.2
  refine ⟨?_, ?_, ?_, ?_, ?_⟩
  · apply Bool.eq_false_iff.mpr
    intro hl
    rcases (isLocalChar_iff c).mp hl with ⟨ha, hb⟩ | ⟨ha, hb⟩ | hc | hc | hc | hc | hc
    · have ha' : (97 : Nat) ≤ c.val.toNat := ha
      omega
    · have hb' : c.val.toNat ≤ (57 : Nat) := hb
      omega
    all_goals (subst hc; revert h1 h2; decide)
  · apply Bool.eq_false_iff.mpr
    intro hl
    rcases (isDomainChar_iff c).mp hl with ⟨ha, hb⟩ | ⟨ha, hb⟩ | hc | hc
    · have ha' : (97 : Nat) ≤ c.val.toNat := ha
      omega
    · have hb' : c.val.toNat ≤ (57 : Nat) := hb
      omega
    all_goals (subst hc; revert h1 h2; decide)
  · apply Bool.eq_false_iff.mpr
    intro hl
    obtain ⟨ha, hb⟩ := (isTldChar_iff c).mp hl
    have ha' : (97 : Nat) ≤ c.val.toNat := ha
    omega
  · intro hc
    subst hc
    revert h1 h2
    decide
  · intro hc
    subst hc
    revert h1 h2
    decide

/-- The matcher accepts a character list exactly when it decomposes as
local part, `@`, domain, `.`, top-level label per the pattern. -/
lemma emailMatch_iff (cs : List Char) :
    emailMatch cs = true ↔
      ∃ l d t : List Char,
        cs = l ++ '@' :: (d ++ '.' :: t) ∧
        l ≠ [] ∧ (∀ c ∈ l, LocalCharSpec c) ∧
        d ≠ [] ∧ (∀ c ∈ d, DomainCharSpec c) ∧
        2 ≤ t.length ∧ t.length ≤ 4 ∧ (∀ c ∈ t, TldCharSpec c) := by
  constructor
  · intro hm
    cases hdp : cs.dropWhile isLocalChar with
    | nil => simp [emailMatch, hdp] at hm
    | cons c rest =>
        rw [emailMatch, hdp] at hm
        simp only [Bool.and_eq_true, beq_iff_eq, decide_eq_true_eq] at hm
        obtain ⟨⟨hc, hne⟩, hdo⟩ := hm
        subst hc
        have hsplit := (List.takeWhile_append_dropWhile isLocalChar cs).symm
        rw [hdp] at hsplit
        cases hdd : rest.reverse.dropWhile isTldChar with
        | nil => simp [domainTldMatch, hdd] at hdo
        | cons c2 drev =>
            rw [domainTldMatch, hdd] at hdo
            simp only [Bool.and_eq_true, beq_iff_eq, decide_eq_true_eq,
              List.all_eq_true] at hdo
            obtain ⟨⟨⟨⟨hc2, hlen2⟩, hlen4⟩, hne2⟩, hall⟩ := hdo
            subst hc2
            have hrev := (List.takeWhile_append_dropWhile isTldChar rest.reverse).symm
            rw [hdd] at hrev
            have hrest : rest =
                drev.reverse ++ '.' :: (rest.reverse.takeWhile isTldChar).reverse := by
              have hr2 := congrArg List.reverse hrev
              simpa [List.reverse_append] using hr2
            refine ⟨cs.takeWhile isLocalChar, drev.reverse,
              (rest.reverse.takeWhile isTldChar).reverse, ?_, hne, ?_, ?_, ?_, ?_, ?_, ?_⟩
            · rw [← hrest]
              exact hsplit
            · intro ch hch
              exact (isLocalChar_iff ch).mp (List.mem_takeWhile_imp hch)
            · simpa using hne2
            · intro ch hch
              exact (isDomainChar_iff ch).mp (hall ch (List.mem_reverse.mp hch))
            · simpa using hlen2
            · simpa using hlen4
            · intro ch hch
              exact (isTldChar_iff ch).mp
                (List.mem_takeWhile_imp (List.mem_reverse.mp hch))
  · rintro ⟨l, d, t, hcs, hl, hlall, hd, hdall, ht2, ht4, htall⟩
    subst hcs
    have hlall' : ∀ c ∈ l, isLocalChar c = true :=
      fun c hc => (isLocalChar_iff c).mpr (hlall c hc)
    have hsplit := takeWhile_dropWhile_of_split l '@' (d ++ '.' :: t) hlall' (by decide)
    rw [emailMatch, hsplit.2, hsplit.1]
    have htall' : ∀ c ∈ t.reverse, isTldChar c = true :=
      fun c hc => (isTldChar_iff c).mpr (htall c (List.mem_reverse.mp hc))
    have hrev : (d ++ '.' :: t).reverse = t.reverse ++ '.' :: d.reverse := by
      simp [List.reverse_cons, List.reverse_append]
    have hsplit2 := takeWhile_dropWhile_of_split t.reverse '.' d.reverse htall' (by decide)
    simp only [domainTldMatch]
    rw [hrev, hsplit2.2, hsplit2.1]
    simp only [Bool.and_eq_true, beq_iff_eq, decide_eq_true_eq, List.all_eq_true,
      List.length_reverse, List.mem_reverse, ne_eq, List.reverse_eq_nil_iff,
      ht2, ht4, hd, hl, and_true, true_and, not_false_iff]
    intro ch hch
    exact (isDomainChar_iff ch).mpr (hdall ch hch)

/-- Claim C7: `isValidEmail` accepts a string exactly when it consists of a
local part of one or more characters from lowercase letters, digits and
`. _ % + -`, an `@`, a domain of one or more characters from lowercase
letters, digits, `.` and `-`, a literal `.`, and a top-level label of
2–4 lowercase letters; in particular every string containing an
uppercase letter is rejected. -/
theorem email_grammar_characterization (s : String) :
    (isValidEmail s = true ↔
      ∃ l d t : List Char,
        s.data = l ++ '@' :: (d ++ '.' :: t) ∧
        l ≠ [] ∧ (∀ c ∈ l, LocalCharSpec c) ∧
        d ≠ [] ∧ (∀ c ∈ d, DomainCharSpec c) ∧
        2 ≤ t.length ∧ t.length ≤ 4 ∧ (∀ c ∈ t, TldCharSpec c)) ∧
    (∀ c ∈ s.data, c.isUpper = true → isValidEmail s = false) := by
  constructor
  · exact emailMatch_iff s.data
  · intro c hc hup
    apply Bool.eq_false_iff.mpr
    intro hv
    obtain ⟨l, d, t, hcs, _, hlall, _, hdall, _, _, htall⟩ := (emailMatch_iff s.data).mp hv
    obtain ⟨hlf, hdf, htf, hat, hdot⟩ := isUpper_rejected_everywhere c hup
    rw [hcs] at hc
    rcases List.mem_append.mp hc with hcl | hcr
    · exact absurd ((isLocalChar_iff c).mpr (hlall c hcl)) (by simp [hlf])
    · rcases List.mem_cons.mp hcr with rfl | hcr2
      · exact hat rfl
      · rcases List.mem_append.mp hcr2 with hcd | hct
        · exact absurd ((isDomainChar_iff c).mpr (hdall c hcd)) (by simp [hdf])
        · rcases List.mem_cons.mp hct with rfl | hct2
          · exact hdot rfl
          · exact absurd ((isTldChar_iff c).mpr (htall c hct2)) (by simp [htf])

/-- Witness for C7: `ab@cd.ef` decomposes per the grammar and is accepted;
`Ab@cd.ef` contains the uppercase `A` and is rejected. -/
theorem email_grammar_characterization_witness :
    isValidEmail "ab@cd.ef" = true ∧ isValidEmail "Ab@cd.ef" = false := by
  constructor
  · exact (email_grammar_characterization "ab@cd.ef").1.mpr
      ⟨['a', 'b'], ['c', 'd'], ['e', 'f'], by decide, by decide, by decide, by decide,
        by decide, by decide, by decide, by decide⟩
  · exact (email_grammar_characterization "Ab@cd.ef").2 'A' (by decide) (by decide)

end Ingestion
